import Mathlib

/-!
Verification of the `deno add` package-management pipeline
(`cli/tools/registry/pm.rs`): requirement resolution, version-range
selection, merging of resolved entries into the existing dependency map,
and the format-preserving config-file patcher.

Text and names are modelled as `List Char` (one element per character),
so byte offsets of the Rust code become list indices.
-/

namespace DenoAdd

/-- Character-list text, the model of Rust `String` / `&str` values. -/
abbrev Str := List Char

/-- Models Rust `str::strip_prefix(pat)`: `some rest` when `s = pat ++ rest`. -/
def stripPfx : Str → Str → Option Str
  | s, [] => some s
  | [], _ :: _ => none
  | b :: s, a :: pat => if a = b then stripPfx s pat else none

/-- Models Rust `str::starts_with(c)` for a single character. -/
def strStartsWithChar (s : Str) (c : Char) : Bool :=
  match s with
  | [] => false
  | a :: _ => a = c

/-- Models Rust `str::replace(c, r)` for a one-character pattern: every
occurrence of `c` is replaced by `r`. -/
def replaceChar (s : Str) (c : Char) (r : Str) : Str :=
  s.foldr (fun a acc => if a = c then r ++ acc else a :: acc) []

/-- Lexicographic order on character lists, the model of Rust
`Ord for str` (`k1.cmp(k2)`); code-point order agrees with Rust's
byte order on UTF-8. -/
def charListLe : Str → Str → Bool
  | [], _ => true
  | _ :: _, [] => false
  | a :: as, b :: bs => if a = b then charListLe as bs else decide (a < b)

/-- Models `SelectedPackage` (pm.rs line 338). -/
structure SelectedPackage where
  import_name : Str
  package_name : Str
  version_req : Str
deriving DecidableEq

/-- Models `PackageAndVersion` (pm.rs line 344). -/
inductive PackageAndVersion where
  | notFound : Str → PackageAndVersion
  | selected : SelectedPackage → PackageAndVersion
deriving DecidableEq

/-- Models `deno_semver::package::PackageReq` as consumed by pm.rs: the bare
package name and the raw constraint text `req.version_req.version_text()`
(a specifier with no explicit constraint carries the wildcard text `*`). -/
structure PackageReq where
  name : Str
  versionReqText : Str
deriving DecidableEq

/-- Models `AddPackageReq` (pm.rs line 392). -/
inductive AddPackageReq where
  | jsr : PackageReq → AddPackageReq
  | npm : PackageReq → AddPackageReq
deriving DecidableEq

/-- Models `find_package_and_select_version_for_req` (pm.rs lines 349-390).
The two resolver collaborators are abstracted as functions from a request
to an optional concrete version (`req_to_nv`, rendered as `{nv.version}`). -/
def find_package_and_select_version_for_req
    (jsr_resolver : PackageReq → Option Str)
    (npm_resolver : PackageReq → Option Str) :
    AddPackageReq → PackageAndVersion
  | AddPackageReq.jsr req =>
    let jsr_prefixed_name := "jsr:".data ++ req.name
    match jsr_resolver req with
    | none => PackageAndVersion.notFound jsr_prefixed_name
    | some nv =>
      let range_symbol : Char :=
        if strStartsWithChar req.versionReqText '~' then '~' else '^'
      PackageAndVersion.selected
        ⟨req.name, jsr_prefixed_name, range_symbol :: nv⟩
  | AddPackageReq.npm req =>
    let npm_prefixed_name := "npm:".data ++ req.name
    match npm_resolver req with
    | none => PackageAndVersion.notFound npm_prefixed_name
    | some nv =>
      let range_symbol : Char :=
        if strStartsWithChar req.versionReqText '~' then '~' else '^'
      PackageAndVersion.selected
        ⟨req.name, npm_prefixed_name, range_symbol :: nv⟩

/-- Models `package_json_dependency_entry` (pm.rs lines 165-179). -/
def package_json_dependency_entry (selected : SelectedPackage) : Str × Str :=
  match stripPfx selected.package_name "npm:".data with
  | some npm_package => (npm_package, selected.version_req)
  | none =>
    match stripPfx selected.package_name "jsr:".data with
    | some jsr_package =>
      let jsr_package :=
        match stripPfx jsr_package ['@'] with
        | some rest => rest
        | none => jsr_package
      let scope_replaced := replaceChar jsr_package '/' "__".data
      (selected.import_name,
       "npm:@jsr/".data ++ scope_replaced ++ ['@'] ++ selected.version_req)
    | none => (selected.package_name, selected.version_req)

/-- Models the specifier built for the native manifest kind
(pm.rs lines 296-302): `"{package_name}@{version_req}"`. -/
def selectedSpecifier (selected : SelectedPackage) : Str :=
  selected.package_name ++ ['@'] ++ selected.version_req

/-- Models `IndexMap::insert` on a string map: when the key is present its
value is replaced in place, otherwise the pair is appended at the end. -/
def indexMapInsert (m : List (Str × Str)) (k v : Str) : List (Str × Str) :=
  if m.any (fun p => p.1 = k) then
    m.map (fun p => if p.1 = k then (k, v) else p)
  else
    m ++ [(k, v)]

/-- Keys of a dependency map, in order. -/
def keys (m : List (Str × Str)) : List Str := m.map Prod.fst

/-- Lookup in a dependency map: the value of the first pair whose key
matches, the model of `IndexMap` access. -/
def mapGet (m : List (Str × Str)) (k : Str) : Option Str :=
  (m.find? (fun p => p.1 = k)).map (fun p => p.2)

/-- Models the per-package entry inserted by the merge loop of `add`
(pm.rs lines 284-304): for the foreign (`package.json`) kind the entry is
rewritten by `package_json_dependency_entry`; for the native kind the entry
is the import name mapped to `"{package_name}@{version_req}"`. -/
def dependencyEntry (is_npm : Bool) (selected_package : SelectedPackage) :
    Str × Str :=
  if is_npm then
    package_json_dependency_entry selected_package
  else
    (selected_package.import_name, selectedSpecifier selected_package)

/-- Models the merge loop of `add` (pm.rs lines 284-304): each selected
package is inserted into the existing imports map in completion order. -/
def mergeSelected (existing : List (Str × Str)) (is_npm : Bool)
    (selected_packages : List SelectedPackage) : List (Str × Str) :=
  selected_packages.foldl
    (fun m selected_package =>
      let e := dependencyEntry is_npm selected_package
      indexMapInsert m e.1 e.2)
    existing

/-- Merge of a batch of already-rendered (name, specifier) entries into the
existing map, one `IndexMap::insert` per entry. `mergeSelected` is this
fold composed with `dependencyEntry`. -/
def mergeEntries (existing : List (Str × Str)) (news : List (Str × Str)) :
    List (Str × Str) :=
  news.foldl (fun m e => indexMapInsert m e.1 e.2) existing

/-- Ascending order on entries by import name, the comparator of
`import_list.sort_by(|(k1, _), (k2, _)| k1.cmp(k2))` (pm.rs line 308). -/
def ImportLe (a b : Str × Str) : Prop := charListLe a.1 b.1 = true

instance : DecidableRel ImportLe :=
  fun a b => inferInstanceAs (Decidable (charListLe a.1 b.1 = true))

/-- Models `import_list.sort_by(...)` (pm.rs line 308). Rust `sort_by` is a
stable sort, modelled by the stable insertion sort. -/
def sortImports (import_list : List (Str × Str)) : List (Str × Str) :=
  List.insertionSort ImportLe import_list

/-- Models `generate_imports` (pm.rs lines 397-408): each entry is rendered
as `"name": "specifier"`, a `,` line is pushed after every entry except the
last, and the pieces are joined with newlines. -/
def generate_imports (packages_to_version : List (Str × Str)) : Str :=
  let len := packages_to_version.length
  let contents := packages_to_version.enum.foldl
    (fun acc x =>
      let acc := acc ++ [['"'] ++ x.2.1 ++ "\": \"".data ++ x.2.2 ++ ['"']]
      if x.1 ≠ len - 1 then acc ++ [[',']] else acc)
    []
  List.intercalate ['\n'] contents

/-- Byte range of a syntax-tree node (jsonc_parser `Range`): `start` is the
offset of the first character, `stop` one past the last. -/
structure SrcRange where
  start : Nat
  stop : Nat
deriving DecidableEq

/-- Models the jsonc_parser AST values pm.rs inspects: an object literal
carries its byte range and its properties (name, value); every other value
shape is collapsed into `stringValue`/`otherValue`, which pm.rs never
destructures further. -/
inductive AstValue : Type where
  | objectValue : SrcRange → List (Str × AstValue) → AstValue
  | stringValue : Str → AstValue
  | otherValue : AstValue

/-- Models a jsonc_parser `ast::Object`: its byte range and properties. -/
structure JsonObject where
  range : SrcRange
  props : List (Str × AstValue)

/-- Models `Object::get(name)`: the value of the first property with the
given name. -/
def JsonObject.get (o : JsonObject) (key : Str) : Option AstValue :=
  (o.props.find? (fun p => p.1 = key)).map (fun p => p.2)

/-- Models `deno_ast::TextChange`: a half-open range into the original text
plus replacement text. -/
structure TextChange where
  rangeStart : Nat
  rangeStop : Nat
  newText : Str
deriving DecidableEq

/-- Splice of one text change into the text. -/
def applyTextChange (text : Str) (tc : TextChange) : Str :=
  text.take tc.rangeStart ++ tc.newText ++ text.drop tc.rangeStop

/-- Models `deno_ast::apply_text_changes`: changes are applied against the
original text from the last range to the first (pm.rs only ever passes a
single change). -/
def applyTextChanges (text : Str) (tcs : List TextChange) : Str :=
  tcs.foldr (fun tc acc => applyTextChange acc tc) text

/-- Models the edit computation of `update_config_file_content`
(pm.rs lines 418-445): when the dependency-section property exists with an
object value, the range strictly between its braces is replaced by the
rendered body; when absent, `"key": \x7b\n body \x7d` is inserted at the
position of the top-level object's closing brace; when present with a
non-object value the code panics (`none` here). -/
def configTextChanges (obj : JsonObject) (generated_imports : Str)
    (imports_key : Str) : Option (List TextChange) :=
  match JsonObject.get obj imports_key with
  | some (AstValue.objectValue litRange _) =>
    some [⟨litRange.start + 1, litRange.stop - 1, generated_imports⟩]
  | none =>
    let insert_position := obj.range.stop - 1
    some [⟨insert_position, insert_position,
      ['"'] ++ imports_key ++ "\": \x7b\n ".data ++ generated_imports
        ++ " \x7d".data⟩]
  | some _ => none

/-- Models `update_config_file_content` (pm.rs lines 410-458). The
formatter collaborator `format_json(path, text, options)` is abstracted as
a function on the edited text; `.ok().map(|t| t.unwrap_or(new_text))
.unwrap_or(new_text)` makes any formatter failure fall back to the
unformatted edited text. The panic branch surfaces as `none`. -/
def update_config_file_content (obj : JsonObject) (config_file_contents : Str)
    (generated_imports : Str) (fmtJson : Str → Except Unit (Option Str))
    (imports_key : Str) : Option Str :=
  (configTextChanges obj generated_imports imports_key).map
    (fun text_changes =>
      let new_text := applyTextChanges config_file_contents text_changes
      match fmtJson new_text with
      | Except.ok (some formatted_text) => formatted_text
      | Except.ok none => new_text
      | Except.error _ => new_text)

/-- Models a parsed JSON value as held by `deno_config` (`serde_json`
values): pm.rs only distinguishes strings, objects and everything else. -/
inductive JValue where
  | str : Str → JValue
  | obj : List (Str × JValue) → JValue
  | other : JValue

/-- Models `serde_json::from_value::<IndexMap<String, String>>`: succeeds
exactly when the value is an object all of whose member values are
strings. -/
def fromValueStringMap : JValue → Option (List (Str × Str))
  | JValue.obj props =>
    props.foldr
      (fun p acc =>
        match p.2, acc with
        | JValue.str s, some m => some ((p.1, s) :: m)
        | _, _ => none)
      (some [])
  | _ => none

/-- Models `DenoOrPackageJson::existing_imports` for the native kind
(pm.rs lines 66-79): the parsed `imports` member, when present, must be a
flat string-to-string object; when absent the map is empty. -/
def existing_imports (imports : Option JValue) :
    Except Str (List (Str × Str)) :=
  match imports with
  | some v =>
    match fromValueStringMap v with
    | some m => Except.ok m
    | none => Except.error "Malformed imports configuration".data
  | none => Except.ok []

/-- Shape correspondence between a jsonc_parser AST node and the
`serde_json` value parsed from the same text: both parses classify the node
the same way (object / string / other). Only the top-level shape is
related, which is all pm.rs relies on. -/
inductive astRepresents : AstValue → JValue → Prop where
  | object : ∀ r aprops jprops,
      astRepresents (AstValue.objectValue r aprops) (JValue.obj jprops)
  | string : ∀ s, astRepresents (AstValue.stringValue s) (JValue.str s)
  | other : astRepresents AstValue.otherValue JValue.other

/-- Error outcomes of `add` after resolution results are available,
modelling the `bail!`/`?`/panic exits of pm.rs lines 249-324. -/
inductive AddError where
  | notFound : Str → AddError
  | resolveError : Str → AddError
  | parseError : AddError
  | noObject : AddError
  | configError : Str → AddError
  | invalidShape : AddError
deriving DecidableEq

/-- Models the result-collection loop of `add` (pm.rs lines 249-260):
results are consumed in completion order; a lookup error propagates via
`?`; the first Not-Found bails naming the package; selected packages are
pushed in order. -/
def collectSelected :
    List (Except Str PackageAndVersion) → Except AddError (List SelectedPackage)
  | [] => Except.ok []
  | r :: rest =>
    match r with
    | Except.error e => Except.error (AddError.resolveError e)
    | Except.ok (PackageAndVersion.notFound package_name) =>
      Except.error (AddError.notFound package_name)
    | Except.ok (PackageAndVersion.selected selected) =>
      match collectSelected rest with
      | Except.ok selected_packages => Except.ok (selected :: selected_packages)
      | Except.error e => Except.error e

/-- Models the config-file read of `add` (pm.rs lines 262-269): a file
whose contents trim to empty is replaced by `\x7b\x7d\n`.
`contents.trim().is_empty()` holds exactly when every character is
whitespace. -/
def normalizeConfigContents (contents : Str) : Str :=
  if contents.all Char.isWhitespace then "\x7b\x7d\n".data else contents

/-- Models `add` from the point the resolution results are consumed to the
computation of the text to be written (pm.rs lines 249-322): collect
results (fail fast), read and normalize the config text, parse it (the
jsonc parser collaborator is the `parseAst` argument), require a top-level
object, read the existing imports (`importsJson` is the parsed `imports`
member for the native kind), merge, sort, render, and patch. The returned
`Except.ok` value is exactly the text passed to the file write at line
322; any error aborts before the write. -/
def addPipeline (results : List (Except Str PackageAndVersion))
    (rawContents : Str) (parseAst : Str → Option AstValue)
    (importsJson : Option JValue) (is_npm : Bool) (imports_key : Str)
    (fmtJson : Str → Except Unit (Option Str)) : Except AddError Str :=
  match collectSelected results with
  | Except.error e => Except.error e
  | Except.ok selected_packages =>
    let config_file_contents := normalizeConfigContents rawContents
    match parseAst config_file_contents with
    | none => Except.error AddError.parseError
    | some astVal =>
      match astVal with
      | AstValue.objectValue r props =>
        match existing_imports importsJson with
        | Except.error e => Except.error (AddError.configError e)
        | Except.ok existing0 =>
          let merged := mergeSelected existing0 is_npm selected_packages
          let import_list := sortImports merged
          let generated_imports := generate_imports import_list
          match update_config_file_content ⟨r, props⟩ config_file_contents
              generated_imports fmtJson imports_key with
          | some new_text => Except.ok new_text
          | none => Except.error AddError.invalidShape
      | _ => Except.error AddError.noObject

/-- Modelled from the spec: the Concurrent Resolution Driver's scheduler
(`buffer_unordered(10)` over the lookup futures, pm.rs lines 234-247, whose
implementation lives in the external futures crate). A state holds the
futures not yet started, the ones in flight, and the completed results. -/
structure DriverState where
  pending : List AddPackageReq
  inFlight : List AddPackageReq
  results : List PackageAndVersion
deriving DecidableEq

/-- Initial driver state: every requirement pending, none in flight. -/
def initDriverState (reqs : List AddPackageReq) : DriverState :=
  ⟨reqs, [], []⟩

/-- Modelled from the spec: one scheduler transition of
`buffer_unordered(10)`. A pending lookup may start only while fewer than 10
are in flight; any in-flight lookup may complete next (no completion order
is imposed), appending its result. -/
inductive DriverStep (resolve : AddPackageReq → PackageAndVersion) :
    DriverState → DriverState → Prop where
  | start : ∀ req pending inFlight results,
      inFlight.length < 10 →
      DriverStep resolve ⟨req :: pending, inFlight, results⟩
        ⟨pending, req :: inFlight, results⟩
  | finish : ∀ req pending inFlight results,
      req ∈ inFlight →
      DriverStep resolve ⟨pending, inFlight, results⟩
        ⟨pending, inFlight.erase req, results ++ [resolve req]⟩

/-- Reflexive-transitive closure of the driver transitions. -/
inductive DriverReachable (resolve : AddPackageReq → PackageAndVersion) :
    DriverState → DriverState → Prop where
  | refl : ∀ s, DriverReachable resolve s s
  | tail : ∀ s t u, DriverReachable resolve s t → DriverStep resolve t u →
      DriverReachable resolve s u

end DenoAdd

namespace DenoAdd

theorem charListLe_refl : ∀ a : Str, charListLe a a = true
  | [] => rfl
  | a :: as => by simp [charListLe, charListLe_refl as]

theorem charListLe_total : ∀ a b : Str, charListLe a b = true ∨ charListLe b a = true
  | [], _ => Or.inl rfl
  | _ :: _, [] => Or.inr rfl
  | a :: as, b :: bs => by
    by_cases hab : a = b
    · subst hab
      simpa [charListLe] using charListLe_total as bs
    · rcases lt_or_gt_of_ne hab with h | h
      · left
        simp [charListLe, hab, h]
      · right
        simp [charListLe, Ne.symm hab, h]

theorem charListLe_trans :
    ∀ a b c : Str, charListLe a b = true → charListLe b c = true →
      charListLe a c = true
  | [], _, _ => by
    intro _ _
    rfl
  | _ :: _, [], _ => by
    intro h _
    exact absurd h (by simp [charListLe])
  | _ :: _, _ :: _, [] => by
    intro _ h
    exact absurd h (by simp [charListLe])
  | a :: as, b :: bs, c :: cs => by
    intro h1 h2
    by_cases hab : a = b <;> by_cases hbc : b = c
    · subst hab
      subst hbc
      simp only [charListLe, if_pos rfl] at h1 h2 ⊢
      exact charListLe_trans as bs cs h1 h2
    · subst hab
      simp only [charListLe, if_pos rfl] at h1
      simp only [charListLe, if_neg hbc] at h2
      simp [charListLe, hbc, of_decide_eq_true h2]
    · subst hbc
      simp only [charListLe, if_neg hab] at h1
      simp [charListLe, hab, of_decide_eq_true h1]
    · simp only [charListLe, if_neg hab] at h1
      simp only [charListLe, if_neg hbc] at h2
      have hac : a < c := lt_trans (of_decide_eq_true h1) (of_decide_eq_true h2)
      simp [charListLe, ne_of_lt hac, hac]

theorem charListLe_antisymm :
    ∀ a b : Str, charListLe a b = true → charListLe b a = true → a = b
  | [], [] => fun _ _ => rfl
  | [], _ :: _ => fun _ h => absurd h (by simp [charListLe])
  | _ :: _, [] => fun h _ => absurd h (by simp [charListLe])
  | a :: as, b :: bs => fun h1 h2 => by
    by_cases hab : a = b
    · subst hab
      simp only [charListLe, if_pos rfl] at h1 h2
      rw [charListLe_antisymm as bs h1 h2]
    · simp only [charListLe, if_neg hab] at h1
      simp only [charListLe, if_neg (Ne.symm hab)] at h2
      exact absurd (of_decide_eq_true h1)
        (not_lt_of_gt (of_decide_eq_true h2))

theorem stripPfx_append : ∀ p s : Str, stripPfx (p ++ s) p = some s
  | [], s => by cases s <;> rfl
  | a :: p, s => by simp [stripPfx, stripPfx_append p s]

end DenoAdd

namespace DenoAdd

theorem mem_keys_iff_any (m : List (Str × Str)) (k : Str) :
    m.any (fun p => p.1 = k) = true ↔ k ∈ keys m := by
  rw [List.any_eq_true]
  constructor
  · rintro ⟨p, hp, hpe⟩
    exact List.mem_map.mpr ⟨p, hp, of_decide_eq_true hpe⟩
  · intro h
    rcases List.mem_map.mp h with ⟨p, hp, he⟩
    exact ⟨p, hp, decide_eq_true he⟩

theorem mapGet_cons_pos (p : Str × Str) (t : List (Str × Str)) (k : Str)
    (h : p.1 = k) : mapGet (p :: t) k = some p.2 := by
  unfold mapGet
  rw [List.find?_cons_of_pos]
  · rfl
  · simpa using h

theorem mapGet_cons_neg (p : Str × Str) (t : List (Str × Str)) (k : Str)
    (h : ¬ p.1 = k) : mapGet (p :: t) k = mapGet t k := by
  unfold mapGet
  rw [List.find?_cons_of_neg]
  simpa using h

theorem keys_replace (m : List (Str × Str)) (k v : Str) :
    keys (m.map (fun p => if p.1 = k then (k, v) else p)) = keys m := by
  induction m with
  | nil => rfl
  | cons p t ih =>
    simp only [keys, List.map_cons] at ih ⊢
    by_cases h : p.1 = k
    · simp [h, ih]
    · simp [h, ih]

theorem mapGet_replace_self (m : List (Str × Str)) (k v : Str)
    (h : m.any (fun p => p.1 = k) = true) :
    mapGet (m.map (fun p => if p.1 = k then (k, v) else p)) k = some v := by
  induction m with
  | nil => simp at h
  | cons p t ih =>
    by_cases hp : p.1 = k
    · simp [mapGet, List.map_cons, hp]
    · have h' : t.any (fun p => p.1 = k) = true := by
        simpa [List.any_cons, hp] using h
      simpa [mapGet, List.map_cons, hp] using ih h'

theorem mapGet_append_single_self (m : List (Str × Str)) (k v : Str)
    (h : m.any (fun p => p.1 = k) = false) :
    mapGet (m ++ [(k, v)]) k = some v := by
  induction m with
  | nil => simp [mapGet]
  | cons p t ih =>
    have hp : ¬ p.1 = k := by
      intro hk
      simp [List.any_cons, hk] at h
    have h' : t.any (fun p => p.1 = k) = false := by
      simpa [List.any_cons, hp] using h
    simpa [mapGet, List.cons_append, hp] using ih h'

theorem mapGet_indexMapInsert_self (m : List (Str × Str)) (k v : Str) :
    mapGet (indexMapInsert m k v) k = some v := by
  unfold indexMapInsert
  by_cases h : m.any (fun p => p.1 = k) = true
  · rw [if_pos h]
    exact mapGet_replace_self m k v h
  · rw [if_neg h]
    exact mapGet_append_single_self m k v (Bool.not_eq_true _ ▸ h)

theorem mapGet_replace_ne (m : List (Str × Str)) (k v k' : Str)
    (h : k' ≠ k) :
    mapGet (m.map (fun p => if p.1 = k then (k, v) else p)) k' = mapGet m k' := by
  induction m with
  | nil => rfl
  | cons p t ih =>
    rw [List.map_cons]
    by_cases hp : p.1 = k
    · rw [if_pos hp]
      rw [mapGet_cons_neg _ _ _ (fun hc : k = k' => h hc.symm)]
      rw [mapGet_cons_neg _ _ _ (fun hc : p.1 = k' => h (hc.symm.trans hp))]
      exact ih
    · rw [if_neg hp]
      by_cases hq : p.1 = k'
      · rw [mapGet_cons_pos _ _ _ hq, mapGet_cons_pos _ _ _ hq]
      · rw [mapGet_cons_neg _ _ _ hq, mapGet_cons_neg _ _ _ hq]
        exact ih

theorem mapGet_append_single_ne (m : List (Str × Str)) (k v k' : Str)
    (h : k' ≠ k) :
    mapGet (m ++ [(k, v)]) k' = mapGet m k' := by
  induction m with
  | nil =>
    have : ¬ k = k' := fun hc => h hc.symm
    simp [mapGet, this]
  | cons p t ih =>
    by_cases hq : p.1 = k'
    · simp [mapGet, List.cons_append, hq]
    · simp [mapGet, List.cons_append, hq] at ih ⊢
      exact ih

theorem mapGet_indexMapInsert_ne (m : List (Str × Str)) (k v k' : Str)
    (h : k' ≠ k) :
    mapGet (indexMapInsert m k v) k' = mapGet m k' := by
  unfold indexMapInsert
  by_cases hc : m.any (fun p => p.1 = k) = true
  · rw [if_pos hc]
    exact mapGet_replace_ne m k v k' h
  · rw [if_neg hc]
    exact mapGet_append_single_ne m k v k' h

theorem nodup_keys_indexMapInsert (m : List (Str × Str)) (k v : Str)
    (h : (keys m).Nodup) : (keys (indexMapInsert m k v)).Nodup := by
  unfold indexMapInsert
  by_cases hc : m.any (fun p => p.1 = k) = true
  · rw [if_pos hc, keys_replace]
    exact h
  · rw [if_neg hc]
    have hk : k ∉ keys m := by
      rw [← mem_keys_iff_any]
      simp [hc]
    simp only [keys, List.map_append, List.map_cons, List.map_nil]
    rw [List.nodup_append]
    refine ⟨h, List.nodup_singleton k, ?_⟩
    intro x hx hx2
    rw [List.mem_singleton] at hx2
    exact hk (hx2 ▸ hx)

theorem mapGet_eq_some_of_mem (m : List (Str × Str)) (k v : Str)
    (h : (keys m).Nodup) (hm : (k, v) ∈ m) : mapGet m k = some v := by
  induction m with
  | nil => simp at hm
  | cons p t ih =>
    have hnd := List.nodup_cons.mp (show (p.1 :: keys t).Nodup from h)
    rcases List.mem_cons.mp hm with he | ht
    · rw [← he]
      exact mapGet_cons_pos _ _ _ rfl
    · have hk : k ∈ keys t := List.mem_map.mpr ⟨(k, v), ht, rfl⟩
      have hp : ¬ p.1 = k := fun hc => hnd.1 (hc ▸ hk)
      rw [mapGet_cons_neg _ _ _ hp]
      exact ih hnd.2 ht

theorem mem_of_mapGet_eq_some (m : List (Str × Str)) (k v : Str)
    (hg : mapGet m k = some v) : (k, v) ∈ m := by
  unfold mapGet at hg
  rcases Option.map_eq_some'.mp hg with ⟨p, hfind, hv⟩
  have hmem := List.mem_of_find?_eq_some hfind
  have hkey : p.1 = k := by simpa using List.find?_some hfind
  have : p = (k, v) := by
    cases p
    simp_all
  exact this ▸ hmem

theorem mapGet_mergeEntries_not_mem :
    ∀ (news existing : List (Str × Str)) (k : Str), k ∉ keys news →
      mapGet (mergeEntries existing news) k = mapGet existing k
  | [], _, _ => fun _ => rfl
  | e :: t, existing, k => fun h => by
    have hne : k ≠ e.1 := by
      intro hc
      exact h (by simp [keys, hc])
    have ht : k ∉ keys t := fun hc => h (by simp [keys] at hc ⊢; right; exact hc)
    calc mapGet (mergeEntries (indexMapInsert existing e.1 e.2) t) k
        = mapGet (indexMapInsert existing e.1 e.2) k :=
          mapGet_mergeEntries_not_mem t _ k ht
      _ = mapGet existing k := mapGet_indexMapInsert_ne _ _ _ _ hne

theorem mapGet_mergeEntries_mem :
    ∀ (news existing : List (Str × Str)) (k v : Str), (k, v) ∈ news →
      (keys news).Nodup → mapGet (mergeEntries existing news) k = some v
  | [], _, _, _ => fun hm _ => by simp at hm
  | e :: t, existing, k, v => fun hm hnd => by
    have hnd2 := List.nodup_cons.mp (show (e.1 :: keys t).Nodup from hnd)
    rcases List.mem_cons.mp hm with he | ht
    · have hke : k = e.1 := by rw [← he]
      have hk : k ∉ keys t := hke ▸ hnd2.1
      calc mapGet (mergeEntries (indexMapInsert existing e.1 e.2) t) k
          = mapGet (indexMapInsert existing e.1 e.2) k :=
            mapGet_mergeEntries_not_mem t _ k hk
        _ = some v := by rw [← he]; exact mapGet_indexMapInsert_self _ _ _
    · exact mapGet_mergeEntries_mem t _ k v ht hnd2.2

theorem nodup_keys_mergeEntries :
    ∀ (news existing : List (Str × Str)), (keys existing).Nodup →
      (keys (mergeEntries existing news)).Nodup
  | [], _ => fun h => h
  | e :: t, existing => fun h =>
    nodup_keys_mergeEntries t _ (nodup_keys_indexMapInsert existing e.1 e.2 h)

theorem mergeSelected_eq_mergeEntries
    (existing : List (Str × Str)) (is_npm : Bool) :
    ∀ selected_packages : List SelectedPackage,
      mergeSelected existing is_npm selected_packages =
        mergeEntries existing (selected_packages.map (dependencyEntry is_npm)) := by
  intro sps
  induction sps generalizing existing with
  | nil => rfl
  | cons s t ih =>
    simp only [mergeSelected, List.foldl_cons, List.map_cons, mergeEntries] at ih ⊢
    exact ih _

theorem sortImports_sorted (l : List (Str × Str)) :
    (sortImports l).Sorted ImportLe := by
  letI : IsTotal (Str × Str) ImportLe :=
    ⟨fun a b => charListLe_total a.1 b.1⟩
  letI : IsTrans (Str × Str) ImportLe :=
    ⟨fun a b c => charListLe_trans a.1 b.1 c.1⟩
  exact List.sorted_insertionSort ImportLe l

theorem sortImports_perm (l : List (Str × Str)) : (sortImports l).Perm l :=
  List.perm_insertionSort ImportLe l

theorem eq_of_perm_sorted_nodup_keys :
    ∀ {l1 l2 : List (Str × Str)}, l1.Perm l2 → l1.Sorted ImportLe →
      l2.Sorted ImportLe → (keys l1).Nodup → l1 = l2 := by
  intro l1
  induction l1 with
  | nil =>
    intro l2 hp _ _ _
    exact (hp.symm.eq_nil).symm
  | cons a t ih =>
    intro l2 hp hs1 hs2 hnd
    cases l2 with
    | nil => exact absurd hp.eq_nil (by simp)
    | cons b t2 =>
      have hab : a = b := by
        by_contra hne
        have ha2 : a ∈ b :: t2 := hp.mem_iff.mp (List.mem_cons_self a t)
        have hb1 : b ∈ a :: t := hp.mem_iff.mpr (List.mem_cons_self b t2)
        have ha : a ∈ t2 := by
          rcases List.mem_cons.mp ha2 with h | h
          · exact absurd h hne
          · exact h
        have hb : b ∈ t := by
          rcases List.mem_cons.mp hb1 with h | h
          · exact absurd h.symm hne
          · exact h
        have h1 : ImportLe a b := List.rel_of_sorted_cons hs1 b hb
        have h2 : ImportLe b a := List.rel_of_sorted_cons hs2 a ha
        have hkey : a.1 = b.1 := charListLe_antisymm a.1 b.1 h1 h2
        have hnk : a.1 ∉ keys t :=
          (List.nodup_cons.mp (by simpa [keys] using hnd)).1
        exact hnk (hkey ▸ List.mem_map.mpr ⟨b, hb, rfl⟩)
      subst hab
      have hnd' : (keys t).Nodup :=
        (List.nodup_cons.mp (by simpa [keys] using hnd)).2
      rw [ih hp.cons_inv hs1.of_cons hs2.of_cons hnd']

end DenoAdd

namespace DenoAdd

theorem mapGet_mergeEntries_perm (existing : List (Str × Str))
    {news news2 : List (Str × Str)} (hp : news2.Perm news)
    (hnd : (keys news).Nodup) (k : Str) :
    mapGet (mergeEntries existing news2) k =
      mapGet (mergeEntries existing news) k := by
  have hnd2 : (keys news2).Nodup :=
    ((hp.map Prod.fst).symm).nodup hnd
  by_cases hk : k ∈ keys news
  · rcases List.mem_map.mp hk with ⟨p, hpmem, hfst⟩
    obtain ⟨k0, v0⟩ := p
    have hk0 : k0 = k := hfst
    subst hk0
    have hpmem2 : (k0, v0) ∈ news2 := hp.mem_iff.mpr hpmem
    rw [mapGet_mergeEntries_mem news existing k0 v0 hpmem hnd,
        mapGet_mergeEntries_mem news2 existing k0 v0 hpmem2 hnd2]
  · have hk2 : k ∉ keys news2 := fun hc => hk ((hp.map Prod.fst).mem_iff.mp hc)
    rw [mapGet_mergeEntries_not_mem news2 existing k hk2,
        mapGet_mergeEntries_not_mem news existing k hk]

theorem sortImports_mergeEntries_perm (existing : List (Str × Str))
    {news news2 : List (Str × Str)} (hex : (keys existing).Nodup)
    (hnd : (keys news).Nodup) (hp : news2.Perm news) :
    sortImports (mergeEntries existing news2) =
      sortImports (mergeEntries existing news) := by
  have h1 : (keys (mergeEntries existing news)).Nodup :=
    nodup_keys_mergeEntries news existing hex
  have h2 : (keys (mergeEntries existing news2)).Nodup :=
    nodup_keys_mergeEntries news2 existing hex
  have hmem : ∀ p : Str × Str,
      p ∈ mergeEntries existing news2 ↔ p ∈ mergeEntries existing news := by
    intro p
    constructor
    · intro hm
      apply mem_of_mapGet_eq_some
      rw [← mapGet_mergeEntries_perm existing hp hnd p.1]
      exact mapGet_eq_some_of_mem _ p.1 p.2 h2 hm
    · intro hm
      apply mem_of_mapGet_eq_some
      rw [mapGet_mergeEntries_perm existing hp hnd p.1]
      exact mapGet_eq_some_of_mem _ p.1 p.2 h1 hm
  have hpair : (mergeEntries existing news2).Perm (mergeEntries existing news) :=
    (List.perm_ext_iff_of_nodup (List.Nodup.of_map Prod.fst h2)
      (List.Nodup.of_map Prod.fst h1)).mpr hmem
  have hperm : (sortImports (mergeEntries existing news2)).Perm
      (sortImports (mergeEntries existing news)) :=
    ((sortImports_perm _).trans hpair).trans (sortImports_perm _).symm
  have hkeys2 : (keys (sortImports (mergeEntries existing news2))).Nodup :=
    (((sortImports_perm (mergeEntries existing news2)).map Prod.fst).symm).nodup h2
  exact eq_of_perm_sorted_nodup_keys hperm (sortImports_sorted _)
    (sortImports_sorted _) hkeys2

theorem collectSelected_notFound :
    ∀ (pre suf : List (Except Str PackageAndVersion)) (package_name : Str),
      ∃ e, collectSelected
        (pre ++ Except.ok (PackageAndVersion.notFound package_name) :: suf) =
          Except.error e
  | [], _, package_name => ⟨AddError.notFound package_name, rfl⟩
  | r :: pre, suf, package_name => by
    cases r with
    | error e => exact ⟨AddError.resolveError e, rfl⟩
    | ok pv =>
      cases pv with
      | notFound m => exact ⟨AddError.notFound m, rfl⟩
      | selected s =>
        obtain ⟨e, he⟩ := collectSelected_notFound pre suf package_name
        refine ⟨e, ?_⟩
        rw [List.cons_append]
        show (match collectSelected
            (pre ++ Except.ok (PackageAndVersion.notFound package_name) :: suf) with
          | Except.ok selected_packages => Except.ok (s :: selected_packages)
          | Except.error e => Except.error e) = Except.error e
        rw [he]

theorem collectSelected_all_selected_notFound :
    ∀ (pre suf : List (Except Str PackageAndVersion)) (package_name : Str),
      (∀ r ∈ pre, ∃ s, r = Except.ok (PackageAndVersion.selected s)) →
      collectSelected
        (pre ++ Except.ok (PackageAndVersion.notFound package_name) :: suf) =
          Except.error (AddError.notFound package_name)
  | [], _, _ => fun _ => rfl
  | r :: pre, suf, package_name => fun h => by
    obtain ⟨s, hs⟩ := h r (List.mem_cons_self r pre)
    subst hs
    have ih := collectSelected_all_selected_notFound pre suf package_name
      (fun r hr => h r (List.mem_cons_of_mem _ hr))
    rw [List.cons_append]
    show (match collectSelected
        (pre ++ Except.ok (PackageAndVersion.notFound package_name) :: suf) with
      | Except.ok selected_packages => Except.ok (s :: selected_packages)
      | Except.error e => Except.error e) =
        Except.error (AddError.notFound package_name)
    rw [ih]

theorem driver_inFlight_le {resolve : AddPackageReq → PackageAndVersion}
    {s t : DriverState} (h : DriverReachable resolve s t)
    (hs : s.inFlight.length ≤ 10) : t.inFlight.length ≤ 10 := by
  induction h with
  | refl => exact hs
  | tail t u hst hstep ih =>
    cases hstep with
    | start req pending inFlight results hlt =>
      simpa using Nat.succ_le_of_lt hlt
    | finish req pending inFlight results hmem =>
      calc (inFlight.erase req).length
          ≤ inFlight.length := (List.erase_sublist req inFlight).length_le
        _ ≤ 10 := ih

end DenoAdd

namespace DenoAdd

/-- C1, counterexample: a requirement with no user constraint (deno_semver
renders an absent constraint as the wildcard text `*`) whose lookup
resolves to `1.0.3` receives the version expression `^1.0.3`, which is not
the exact (operator-free) version the claim asserts for the
no-constraint case. -/
theorem claim_range_operator_counterexample :
    find_package_and_select_version_for_req (fun _ => none)
        (fun _ => some "1.0.3".data)
        (AddPackageReq.npm ⟨"left-pad".data, "*".data⟩) =
      PackageAndVersion.selected ⟨"left-pad".data, "npm:left-pad".data,
        "^1.0.3".data⟩ ∧
    ("^1.0.3".data : Str) ≠ "1.0.3".data := by
  constructor
  · rfl
  · decide

/-- C1 (amended): for every requirement whose lookup succeeds, the
version-range expression is the resolved version prefixed by `~` when the
user's original constraint text begins with `~` and prefixed by `^`
otherwise — including when the user supplied no constraint; e.g. adding
`npm:left-pad@~1.0.0` resolving to `1.0.3` yields the specifier
`npm:left-pad@~1.0.3`. -/
theorem claim_range_operator_amended
    (jsr_resolver npm_resolver : PackageReq → Option Str)
    (req : PackageReq) (nv : Str)
    (hj : jsr_resolver req = some nv) (hn : npm_resolver req = some nv) :
    (find_package_and_select_version_for_req jsr_resolver npm_resolver
        (AddPackageReq.npm req) =
      PackageAndVersion.selected ⟨req.name, "npm:".data ++ req.name,
        (if strStartsWithChar req.versionReqText '~' then '~' else '^')
          :: nv⟩) ∧
    (find_package_and_select_version_for_req jsr_resolver npm_resolver
        (AddPackageReq.jsr req) =
      PackageAndVersion.selected ⟨req.name, "jsr:".data ++ req.name,
        (if strStartsWithChar req.versionReqText '~' then '~' else '^')
          :: nv⟩) ∧
    (find_package_and_select_version_for_req (fun _ => none)
        (fun _ => some "1.0.3".data)
        (AddPackageReq.npm ⟨"left-pad".data, "~1.0.0".data⟩) =
      PackageAndVersion.selected ⟨"left-pad".data, "npm:left-pad".data,
        "~1.0.3".data⟩) ∧
    selectedSpecifier ⟨"left-pad".data, "npm:left-pad".data, "~1.0.3".data⟩ =
      "npm:left-pad@~1.0.3".data := by
  refine ⟨?_, ?_, ?_, ?_⟩
  · simp [find_package_and_select_version_for_req, hn]
  · simp [find_package_and_select_version_for_req, hj]
  · rfl
  · rfl

theorem claim_range_operator_amended_witness :
    ((fun _ : PackageReq => some "1.0.3".data)
        (⟨"left-pad".data, "~1.0.0".data⟩ : PackageReq) =
      some "1.0.3".data) ∧
    find_package_and_select_version_for_req (fun _ => some "1.0.3".data)
        (fun _ => some "1.0.3".data)
        (AddPackageReq.npm ⟨"left-pad".data, "~1.0.0".data⟩) =
      PackageAndVersion.selected ⟨("left-pad".data : Str),
        "npm:".data ++ "left-pad".data,
        (if strStartsWithChar "~1.0.0".data '~' then '~' else '^')
          :: "1.0.3".data⟩ :=
  ⟨rfl,
   (claim_range_operator_amended (fun _ => some "1.0.3".data)
     (fun _ => some "1.0.3".data) ⟨"left-pad".data, "~1.0.0".data⟩
     "1.0.3".data rfl rfl).1⟩

/-- C5: under the foreign (package.json) manifest kind, a resolved entry
whose canonical name carries the `jsr:` prefix is stored with its import
name unchanged as the key and its specifier rewritten to
`npm:@jsr/<scope path with / replaced by __, leading @ dropped>@<version>`;
an entry with the `npm:` prefix is stored under the bare name with the
version expression as specifier. Concrete instances: `@foo/bar` at `^1.2.0`
becomes `npm:@jsr/foo__bar@^1.2.0`. -/
theorem claim_package_json_entry (selected : SelectedPackage) :
    (∀ rest : Str, selected.package_name = "jsr:".data ++ rest →
      package_json_dependency_entry selected =
        (selected.import_name,
         "npm:@jsr/".data ++
           replaceChar
             (match stripPfx rest ['@'] with
              | some r => r
              | none => rest) '/' "__".data ++ ['@'] ++
           selected.version_req)) ∧
    (∀ rest : Str, selected.package_name = "npm:".data ++ rest →
      package_json_dependency_entry selected = (rest, selected.version_req)) ∧
    package_json_dependency_entry
        ⟨"@foo/bar".data, "jsr:@foo/bar".data, "^1.2.0".data⟩ =
      ("@foo/bar".data, "npm:@jsr/foo__bar@^1.2.0".data) ∧
    package_json_dependency_entry
        ⟨"left-pad".data, "npm:left-pad".data, "^1.0.3".data⟩ =
      ("left-pad".data, "^1.0.3".data) := by
  refine ⟨?_, ?_, ?_, ?_⟩
  · intro rest h
    unfold package_json_dependency_entry
    rw [h]
    have h1 : stripPfx ("jsr:".data ++ rest) "npm:".data = none := rfl
    have h2 : stripPfx ("jsr:".data ++ rest) "jsr:".data = some rest :=
      stripPfx_append _ _
    rw [h1, h2]
  · intro rest h
    unfold package_json_dependency_entry
    rw [h, stripPfx_append]
  · rfl
  · rfl

theorem claim_package_json_entry_witness :
    (("jsr:@foo/bar".data : Str) = "jsr:".data ++ "@foo/bar".data) ∧
    package_json_dependency_entry
        ⟨"@foo/bar".data, "jsr:@foo/bar".data, "^1.2.0".data⟩ =
      (("@foo/bar".data : Str),
       "npm:@jsr/".data ++
         replaceChar
           (match stripPfx "@foo/bar".data ['@'] with
            | some r => r
            | none => "@foo/bar".data) '/' "__".data ++ ['@'] ++
         "^1.2.0".data) :=
  ⟨rfl,
   (claim_package_json_entry
     ⟨"@foo/bar".data, "jsr:@foo/bar".data, "^1.2.0".data⟩).1
     "@foo/bar".data rfl⟩

end DenoAdd

namespace DenoAdd

/-- C3: when the top-level object has a dependency-section property whose
value is an object, the single edit replaces exactly the byte range
strictly between that object's braces with the rendered body; when the
property is absent, the single edit inserts
`"key": \x7b\n body \x7d` (leading newline before the body) at the
position immediately before the top-level object's closing brace. -/
theorem claim_patch_edit_shape (obj : JsonObject) (gi key : Str) :
    (∀ litRange props, JsonObject.get obj key =
        some (AstValue.objectValue litRange props) →
      configTextChanges obj gi key =
        some [⟨litRange.start + 1, litRange.stop - 1, gi⟩]) ∧
    (JsonObject.get obj key = none →
      configTextChanges obj gi key =
        some [⟨obj.range.stop - 1, obj.range.stop - 1,
          ['"'] ++ key ++ "\": \x7b\n ".data ++ gi ++ " \x7d".data⟩]) := by
  constructor
  · intro litRange props h
    unfold configTextChanges
    rw [h]
  · intro h
    unfold configTextChanges
    rw [h]

theorem claim_patch_edit_shape_witness :
    (JsonObject.get
        ⟨⟨0, 14⟩, [("imports".data, AstValue.objectValue ⟨11, 13⟩ [])]⟩
        "imports".data = some (AstValue.objectValue ⟨11, 13⟩ [])) ∧
    configTextChanges
        ⟨⟨0, 14⟩, [("imports".data, AstValue.objectValue ⟨11, 13⟩ [])]⟩
        "x".data "imports".data = some [⟨11 + 1, 13 - 1, "x".data⟩] ∧
    configTextChanges (⟨⟨0, 2⟩, []⟩ : JsonObject) "x".data "imports".data =
      some [⟨2 - 1, 2 - 1,
        ['"'] ++ "imports".data ++ "\": \x7b\n ".data ++ "x".data
          ++ " \x7d".data⟩] :=
  ⟨rfl,
   (claim_patch_edit_shape _ _ _).1 ⟨11, 13⟩ [] rfl,
   (claim_patch_edit_shape _ _ _).2 rfl⟩

end DenoAdd

namespace DenoAdd

/-- C6: when the manifest's top-level object already contains a
dependency-section object, the patched text before the formatting pass is
byte-for-byte identical to the original outside the range strictly between
that object's braces: the characters before the range and the characters
after it are carried over unchanged by the single replacement edit. -/
theorem claim_patch_frame (obj : JsonObject) (contents gi key : Str)
    (litRange : SrcRange) (props : List (Str × AstValue))
    (hget : JsonObject.get obj key =
      some (AstValue.objectValue litRange props))
    (hs : litRange.start + 1 ≤ litRange.stop - 1)
    (he : litRange.stop - 1 ≤ contents.length) :
    configTextChanges obj gi key =
      some [⟨litRange.start + 1, litRange.stop - 1, gi⟩] ∧
    (applyTextChanges contents
        [⟨litRange.start + 1, litRange.stop - 1, gi⟩]).take
      (litRange.start + 1) = contents.take (litRange.start + 1) ∧
    (applyTextChanges contents
        [⟨litRange.start + 1, litRange.stop - 1, gi⟩]).drop
      (litRange.start + 1 + gi.length) = contents.drop (litRange.stop - 1) := by
  have happ : applyTextChanges contents
      [⟨litRange.start + 1, litRange.stop - 1, gi⟩] =
      contents.take (litRange.start + 1) ++ gi
        ++ contents.drop (litRange.stop - 1) := rfl
  have hlen : (contents.take (litRange.start + 1)).length =
      litRange.start + 1 := by
    rw [List.length_take]
    exact min_eq_left (le_trans hs he)
  refine ⟨?_, ?_, ?_⟩
  · unfold configTextChanges
    rw [hget]
  · rw [happ, List.append_assoc]
    exact List.take_left' hlen
  · rw [happ]
    refine List.drop_left' ?_
    rw [List.length_append, hlen]

theorem claim_patch_frame_witness :
    (JsonObject.get
        ⟨⟨0, 14⟩, [("imports".data, AstValue.objectValue ⟨11, 13⟩ [])]⟩
        "imports".data = some (AstValue.objectValue ⟨11, 13⟩ [])) ∧
    (11 + 1 ≤ 13 - 1) ∧
    (13 - 1 ≤ ("\x7b\"imports\":\x7b\x7d\x7d".data : Str).length) ∧
    (applyTextChanges "\x7b\"imports\":\x7b\x7d\x7d".data
        [⟨11 + 1, 13 - 1, "\"a\": \"1\"".data⟩]).take (11 + 1) =
      ("\x7b\"imports\":\x7b\x7d\x7d".data : Str).take (11 + 1) :=
  ⟨rfl, by decide, by decide,
   (claim_patch_frame
     ⟨⟨0, 14⟩, [("imports".data, AstValue.objectValue ⟨11, 13⟩ [])]⟩
     "\x7b\"imports\":\x7b\x7d\x7d".data "\"a\": \"1\"".data "imports".data
     ⟨11, 13⟩ [] rfl (by decide) (by decide)).2.1⟩

/-- C8: a formatter failure (error result or `None`) never aborts the write
and never changes the edit's content: the persisted output is exactly the
unformatted edited text. -/
theorem claim_formatter_fallback (obj : JsonObject) (contents gi key : Str)
    (tcs : List TextChange) (hc : configTextChanges obj gi key = some tcs)
    (fmtJson : Str → Except Unit (Option Str))
    (hf : fmtJson (applyTextChanges contents tcs) = Except.error () ∨
      fmtJson (applyTextChanges contents tcs) = Except.ok none) :
    update_config_file_content obj contents gi fmtJson key =
      some (applyTextChanges contents tcs) := by
  unfold update_config_file_content
  rw [hc]
  rcases hf with h | h <;> simp [h]

theorem claim_formatter_fallback_witness :
    (configTextChanges (⟨⟨0, 2⟩, []⟩ : JsonObject) "x".data "imports".data =
      some [⟨2 - 1, 2 - 1,
        ['"'] ++ "imports".data ++ "\": \x7b\n ".data ++ "x".data
          ++ " \x7d".data⟩]) ∧
    ((fun _ : Str => (Except.error () : Except Unit (Option Str)))
        (applyTextChanges "\x7b\x7d\n".data
          [⟨2 - 1, 2 - 1,
            ['"'] ++ "imports".data ++ "\": \x7b\n ".data ++ "x".data
              ++ " \x7d".data⟩]) = Except.error () ∨
      (fun _ : Str => (Except.error () : Except Unit (Option Str)))
        (applyTextChanges "\x7b\x7d\n".data
          [⟨2 - 1, 2 - 1,
            ['"'] ++ "imports".data ++ "\": \x7b\n ".data ++ "x".data
              ++ " \x7d".data⟩]) = Except.ok none) ∧
    update_config_file_content (⟨⟨0, 2⟩, []⟩ : JsonObject) "\x7b\x7d\n".data
        "x".data (fun _ => Except.error ()) "imports".data =
      some (applyTextChanges "\x7b\x7d\n".data
        [⟨2 - 1, 2 - 1,
          ['"'] ++ "imports".data ++ "\": \x7b\n ".data ++ "x".data
            ++ " \x7d".data⟩]) :=
  ⟨rfl, Or.inl rfl,
   claim_formatter_fallback (⟨⟨0, 2⟩, []⟩ : JsonObject) "\x7b\x7d\n".data
     "x".data "imports".data _ rfl (fun _ => Except.error ()) (Or.inl rfl)⟩

/-- C7: under the precondition that reading the existing dependency map
succeeded (the dependency section, when present, parsed by the same text's
value parse as a flat string-to-string object), the patcher's branch for a
dependency-section property whose value is not an object is unreachable —
the edit computation always succeeds; and reaching that branch yields the
fatal-failure result, never an edited document. -/
theorem claim_nonobject_unreachable (obj : JsonObject) (gi key : Str) :
    ((∀ av, JsonObject.get obj key = some av →
        ∃ jv m, astRepresents av jv ∧
          existing_imports (some jv) = Except.ok m) →
      (configTextChanges obj gi key).isSome = true) ∧
    (∀ av, JsonObject.get obj key = some av →
      (∀ litRange props, av ≠ AstValue.objectValue litRange props) →
      configTextChanges obj gi key = none) := by
  constructor
  · intro hpre
    cases hg : JsonObject.get obj key with
    | none =>
      unfold configTextChanges
      rw [hg]
      rfl
    | some av =>
      obtain ⟨jv, m, hrep, hok⟩ := hpre av hg
      have hsome : fromValueStringMap jv = some m := by
        cases hfv : fromValueStringMap jv with
        | none =>
          unfold existing_imports at hok
          simp only [hfv] at hok
          exact Except.noConfusion hok
        | some m2 =>
          unfold existing_imports at hok
          simp only [hfv, Except.ok.injEq] at hok
          rw [hok]
      obtain ⟨jprops, hjv⟩ : ∃ jprops, jv = JValue.obj jprops := by
        cases jv with
        | obj jp => exact ⟨jp, rfl⟩
        | str s => simp [fromValueStringMap] at hsome
        | other => simp [fromValueStringMap] at hsome
      subst hjv
      cases hrep with
      | object r aprops jprops =>
        unfold configTextChanges
        rw [hg]
        rfl
  · intro av hg hne
    cases av with
    | objectValue r p => exact absurd rfl (hne r p)
    | stringValue s =>
      unfold configTextChanges
      rw [hg]
    | otherValue =>
      unfold configTextChanges
      rw [hg]

theorem claim_nonobject_unreachable_witness :
    (∀ av, JsonObject.get
        ⟨⟨0, 14⟩, [("imports".data, AstValue.objectValue ⟨11, 13⟩ [])]⟩
        "imports".data = some av →
      ∃ jv m, astRepresents av jv ∧
        existing_imports (some jv) = Except.ok m) ∧
    (configTextChanges
        ⟨⟨0, 14⟩, [("imports".data, AstValue.objectValue ⟨11, 13⟩ [])]⟩
        "x".data "imports".data).isSome = true ∧
    configTextChanges
        ⟨⟨0, 14⟩, [("imports".data, AstValue.stringValue "oops".data)]⟩
        "x".data "imports".data = none := by
  have hpre : ∀ av, JsonObject.get
      ⟨⟨0, 14⟩, [("imports".data, AstValue.objectValue ⟨11, 13⟩ [])]⟩
      "imports".data = some av →
      ∃ jv m, astRepresents av jv ∧
        existing_imports (some jv) = Except.ok m := by
    intro av hav
    have hv : AstValue.objectValue ⟨11, 13⟩ [] = av :=
      Option.some.inj ((rfl :
        JsonObject.get
          ⟨⟨0, 14⟩, [("imports".data, AstValue.objectValue ⟨11, 13⟩ [])]⟩
          "imports".data =
        some (AstValue.objectValue ⟨11, 13⟩ [])).symm.trans hav)
    rw [← hv]
    exact ⟨JValue.obj [], [], astRepresents.object _ _ _, rfl⟩
  refine ⟨hpre, (claim_nonobject_unreachable _ "x".data _).1 hpre, ?_⟩
  exact (claim_nonobject_unreachable
    ⟨⟨0, 14⟩, [("imports".data, AstValue.stringValue "oops".data)]⟩
    "x".data "imports".data).2 (AstValue.stringValue "oops".data) rfl
    (fun _ _ h => by cases h)

end DenoAdd

namespace DenoAdd

/-- C4: merging newly resolved entries into the existing dependency map
makes each new entry end up in the final list with its new specifier
(overwriting any existing entry sharing the import name), preserves every
other existing entry unchanged, and the resulting entry list is sorted
by import name in ascending lexical order independent of resolution
completion order (any permutation of the batch yields the identical sorted
list); the merge loop over selected packages is exactly this entry-wise
merge. -/
theorem claim_merge_sort (existing news : List (Str × Str))
    (hex : (keys existing).Nodup) (hnd : (keys news).Nodup) :
    (∀ k v, (k, v) ∈ news →
      (k, v) ∈ sortImports (mergeEntries existing news)) ∧
    (∀ k v, (k, v) ∈ existing → k ∉ keys news →
      (k, v) ∈ sortImports (mergeEntries existing news)) ∧
    (sortImports (mergeEntries existing news)).Sorted ImportLe ∧
    (∀ news2, news2.Perm news →
      sortImports (mergeEntries existing news2) =
        sortImports (mergeEntries existing news)) ∧
    (∀ is_npm selected_packages,
      mergeSelected existing is_npm selected_packages =
        mergeEntries existing
          (selected_packages.map (dependencyEntry is_npm))) := by
  refine ⟨?_, ?_, sortImports_sorted _, ?_, ?_⟩
  · intro k v hm
    exact (sortImports_perm _).mem_iff.mpr
      (mem_of_mapGet_eq_some _ k v
        (mapGet_mergeEntries_mem news existing k v hm hnd))
  · intro k v hm hk
    refine (sortImports_perm _).mem_iff.mpr (mem_of_mapGet_eq_some _ k v ?_)
    rw [mapGet_mergeEntries_not_mem news existing k hk]
    exact mapGet_eq_some_of_mem existing k v hex hm
  · intro news2 hp
    exact sortImports_mergeEntries_perm existing hex hnd hp
  · intro is_npm selected_packages
    exact mergeSelected_eq_mergeEntries existing is_npm selected_packages

theorem claim_merge_sort_witness :
    ((keys [("a".data, "1".data), ("b".data, "2".data)]).Nodup ∧
     (keys [("c".data, "3".data), ("b".data, "9".data)]).Nodup) ∧
    (∀ k v, (k, v) ∈ [("c".data, "3".data), ("b".data, "9".data)] →
      (k, v) ∈ sortImports (mergeEntries
        [("a".data, "1".data), ("b".data, "2".data)]
        [("c".data, "3".data), ("b".data, "9".data)])) ∧
    (∀ k v, (k, v) ∈ [("a".data, "1".data), ("b".data, "2".data)] →
      k ∉ keys [("c".data, "3".data), ("b".data, "9".data)] →
      (k, v) ∈ sortImports (mergeEntries
        [("a".data, "1".data), ("b".data, "2".data)]
        [("c".data, "3".data), ("b".data, "9".data)])) ∧
    (sortImports (mergeEntries [("a".data, "1".data), ("b".data, "2".data)]
        [("c".data, "3".data), ("b".data, "9".data)])).Sorted ImportLe ∧
    (∀ news2, news2.Perm [("c".data, "3".data), ("b".data, "9".data)] →
      sortImports (mergeEntries
        [("a".data, "1".data), ("b".data, "2".data)] news2) =
        sortImports (mergeEntries [("a".data, "1".data), ("b".data, "2".data)]
          [("c".data, "3".data), ("b".data, "9".data)])) ∧
    (∀ is_npm selected_packages,
      mergeSelected [("a".data, "1".data), ("b".data, "2".data)] is_npm
          selected_packages =
        mergeEntries [("a".data, "1".data), ("b".data, "2".data)]
          (selected_packages.map (dependencyEntry is_npm))) :=
  ⟨⟨by decide, by decide⟩,
   claim_merge_sort [("a".data, "1".data), ("b".data, "2".data)]
     [("c".data, "3".data), ("b".data, "9".data)] (by decide) (by decide)⟩

/-- C2: if any requirement resolves to Not-Found, the whole add operation
fails with an error — no output text is produced, so nothing is written to
the manifest (the write happens only on the success value, after every
requirement has resolved) — and when every result consumed before the
Not-Found was a successful selection, the error names exactly that
package. -/
theorem claim_fail_fast (pre suf : List (Except Str PackageAndVersion))
    (package_name : Str) (rawContents : Str)
    (parseAst : Str → Option AstValue) (importsJson : Option JValue)
    (is_npm : Bool) (imports_key : Str)
    (fmtJson : Str → Except Unit (Option Str)) :
    (∃ e, addPipeline
        (pre ++ Except.ok (PackageAndVersion.notFound package_name) :: suf)
        rawContents parseAst importsJson is_npm imports_key fmtJson =
      Except.error e) ∧
    ((∀ r ∈ pre, ∃ s, r = Except.ok (PackageAndVersion.selected s)) →
      addPipeline
        (pre ++ Except.ok (PackageAndVersion.notFound package_name) :: suf)
        rawContents parseAst importsJson is_npm imports_key fmtJson =
      Except.error (AddError.notFound package_name)) := by
  constructor
  · obtain ⟨e, he⟩ := collectSelected_notFound pre suf package_name
    refine ⟨e, ?_⟩
    unfold addPipeline
    rw [he]
  · intro hall
    have he := collectSelected_all_selected_notFound pre suf package_name hall
    unfold addPipeline
    rw [he]

theorem claim_fail_fast_witness :
    (∀ r ∈ ([Except.ok (PackageAndVersion.selected
        ⟨"a".data, "npm:a".data, "^1.0.0".data⟩)] :
          List (Except Str PackageAndVersion)),
      ∃ s, r = Except.ok (PackageAndVersion.selected s)) ∧
    addPipeline
        (([Except.ok (PackageAndVersion.selected
            ⟨"a".data, "npm:a".data, "^1.0.0".data⟩)] :
              List (Except Str PackageAndVersion)) ++
          Except.ok (PackageAndVersion.notFound "npm:nope".data) :: [])
        "\x7b\x7d\n".data (fun _ => none) none false "imports".data
        (fun _ => Except.ok none) =
      Except.error (AddError.notFound "npm:nope".data) := by
  have hall : ∀ r ∈ ([Except.ok (PackageAndVersion.selected
      ⟨"a".data, "npm:a".data, "^1.0.0".data⟩)] :
        List (Except Str PackageAndVersion)),
      ∃ s, r = Except.ok (PackageAndVersion.selected s) := by
    intro r hr
    rw [List.mem_singleton] at hr
    exact ⟨_, hr⟩
  exact ⟨hall,
    (claim_fail_fast
      [Except.ok (PackageAndVersion.selected
        ⟨"a".data, "npm:a".data, "^1.0.0".data⟩)] []
      "npm:nope".data "\x7b\x7d\n".data (fun _ => none) none false
      "imports".data (fun _ => Except.ok none)).2 hall⟩

/-- C9: every reachable state of the Concurrent Resolution Driver's
scheduler has at most 10 lookups in flight, and from any reachable state
any in-flight lookup may complete next (no ordering is imposed on
completion). -/
theorem claim_driver_bound (resolve : AddPackageReq → PackageAndVersion)
    (reqs : List AddPackageReq) (s : DriverState)
    (h : DriverReachable resolve (initDriverState reqs) s) :
    s.inFlight.length ≤ 10 ∧
    (∀ req ∈ s.inFlight, DriverStep resolve s
      ⟨s.pending, s.inFlight.erase req, s.results ++ [resolve req]⟩) := by
  constructor
  · exact driver_inFlight_le h (by simp [initDriverState])
  · intro req hreq
    cases s with
    | mk pending inFlight results => exact DriverStep.finish _ _ _ _ hreq

theorem claim_driver_bound_witness :
    DriverReachable (fun _ => PackageAndVersion.notFound [])
      (initDriverState [AddPackageReq.npm ⟨"a".data, "*".data⟩])
      ⟨[], [AddPackageReq.npm ⟨"a".data, "*".data⟩], []⟩ ∧
    ((⟨[], [AddPackageReq.npm ⟨"a".data, "*".data⟩], []⟩ :
        DriverState).inFlight.length ≤ 10 ∧
     (∀ req ∈ (⟨[], [AddPackageReq.npm ⟨"a".data, "*".data⟩], []⟩ :
        DriverState).inFlight,
       DriverStep (fun _ => PackageAndVersion.notFound [])
         ⟨[], [AddPackageReq.npm ⟨"a".data, "*".data⟩], []⟩
         ⟨[], [AddPackageReq.npm ⟨"a".data, "*".data⟩].erase req,
          [] ++ [(fun _ => PackageAndVersion.notFound []) req]⟩)) := by
  have hreach : DriverReachable (fun _ => PackageAndVersion.notFound [])
      (initDriverState [AddPackageReq.npm ⟨"a".data, "*".data⟩])
      ⟨[], [AddPackageReq.npm ⟨"a".data, "*".data⟩], []⟩ :=
    DriverReachable.tail _ _ _ (DriverReachable.refl _)
      (DriverStep.start _ [] [] [] (by decide))
  exact ⟨hreach, claim_driver_bound _ _ _ hreach⟩

end DenoAdd

namespace DenoAdd

theorem addPipeline_ok (results : List (Except Str PackageAndVersion))
    (rawContents : Str) (parseAst : Str → Option AstValue)
    (importsJson : Option JValue) (is_npm : Bool) (imports_key : Str)
    (fmtJson : Str → Except Unit (Option Str))
    (selected_packages : List SelectedPackage) (r : SrcRange)
    (props : List (Str × AstValue)) (existing0 : List (Str × Str))
    (hok : collectSelected results = Except.ok selected_packages)
    (hp : parseAst (normalizeConfigContents rawContents) =
      some (AstValue.objectValue r props))
    (hex : existing_imports importsJson = Except.ok existing0) :
    addPipeline results rawContents parseAst importsJson is_npm imports_key
        fmtJson =
      match update_config_file_content ⟨r, props⟩
          (normalizeConfigContents rawContents)
          (generate_imports
            (sortImports (mergeSelected existing0 is_npm selected_packages)))
          fmtJson imports_key with
      | some new_text => Except.ok new_text
      | none => Except.error AddError.invalidShape := by
  unfold addPipeline
  rw [hok]
  simp only [hp, hex]

/-- C10: when the manifest file's contents are empty or all whitespace,
the read step substitutes the text `\x7b\x7d` followed by a newline before
parsing, so the operation treats the file as an empty top-level object and
inserts the dependency section into it rather than failing with a parse or
no-object error (the parser collaborator's tree for that text is the empty
object spanning offsets 0..2). -/
theorem claim_empty_config (rawContents : Str)
    (hws : rawContents.all Char.isWhitespace = true)
    (results : List (Except Str PackageAndVersion))
    (selected_packages : List SelectedPackage)
    (hok : collectSelected results = Except.ok selected_packages)
    (parseAst : Str → Option AstValue)
    (hp : parseAst "\x7b\x7d\n".data = some (AstValue.objectValue ⟨0, 2⟩ []))
    (fmtJson : Str → Except Unit (Option Str))
    (hf : ∀ t, fmtJson t = Except.ok none) (imports_key : Str) :
    normalizeConfigContents rawContents = "\x7b\x7d\n".data ∧
    addPipeline results rawContents parseAst none false imports_key fmtJson =
      Except.ok ("\x7b".data ++
        (['"'] ++ imports_key ++ "\": \x7b\n ".data ++
          generate_imports
            (sortImports (mergeSelected [] false selected_packages)) ++
          " \x7d".data) ++ "\x7d\n".data) := by
  have hnorm : normalizeConfigContents rawContents = "\x7b\x7d\n".data := by
    unfold normalizeConfigContents
    rw [if_pos hws]
  have hupd : ∀ gi : Str,
      update_config_file_content ⟨⟨0, 2⟩, []⟩ "\x7b\x7d\n".data gi fmtJson
          imports_key =
        some ("\x7b".data ++
          (['"'] ++ imports_key ++ "\": \x7b\n ".data ++ gi ++ " \x7d".data)
            ++ "\x7d\n".data) := by
    intro gi
    have hchg : configTextChanges ⟨⟨0, 2⟩, []⟩ gi imports_key =
        some [⟨2 - 1, 2 - 1,
          ['"'] ++ imports_key ++ "\": \x7b\n ".data ++ gi
            ++ " \x7d".data⟩] := rfl
    unfold update_config_file_content
    rw [hchg]
    simp only [Option.map_some']
    rw [hf]
    rfl
  refine ⟨hnorm, ?_⟩
  rw [addPipeline_ok results rawContents parseAst none false imports_key
    fmtJson selected_packages ⟨0, 2⟩ [] [] hok (by rw [hnorm]; exact hp) rfl]
  rw [hnorm, hupd _]

end DenoAdd

namespace DenoAdd

theorem claim_empty_config_witness :
    (("  \n".data : Str).all Char.isWhitespace = true) ∧
    (collectSelected ([] : List (Except Str PackageAndVersion)) =
      Except.ok ([] : List SelectedPackage)) ∧
    ((fun _ : Str => some (AstValue.objectValue ⟨0, 2⟩ []))
        "\x7b\x7d\n".data = some (AstValue.objectValue ⟨0, 2⟩ [])) ∧
    (∀ t : Str,
      (fun _ : Str => (Except.ok none : Except Unit (Option Str))) t =
        Except.ok none) ∧
    (normalizeConfigContents "  \n".data = "\x7b\x7d\n".data ∧
     addPipeline [] "  \n".data
         (fun _ => some (AstValue.objectValue ⟨0, 2⟩ []))
         none false "imports".data (fun _ => Except.ok none) =
       Except.ok ("\x7b".data ++
         (['"'] ++ "imports".data ++ "\": \x7b\n ".data ++
           generate_imports (sortImports (mergeSelected [] false [])) ++
           " \x7d".data) ++ "\x7d\n".data)) :=
  ⟨by decide, rfl, rfl, fun _ => rfl,
   claim_empty_config "  \n".data (by decide) [] [] rfl _ rfl _ (fun _ => rfl)
     "imports".data⟩

end DenoAdd
